import Mathlib

/-!
The jsh shell: tokenizer/parser, job table and process orchestrator

A shallow embedding of `src/parser.c`, `src/jobs.c` and `src/executor.c`.

Conventions of the embedding
* A C string is the list of its characters before the terminating NUL; a token is a `String`.
* `char *args[MAX_ARGS]` together with `num_args` is the list of the `num_args` counted tokens;
  `args[i]?` is `none` exactly where the C code would see the slot after the counted tokens.
  That slot is only ever compared with `NULL` behind a short-circuit that has already decided
  the answer, so its content never reaches a result.
* Loops are recursive functions on the number of iterations left (`fuel`), carrying the loop
  index and the loop-carried variables.
* Heap allocation (`malloc`, `strdup`) is taken to succeed in the parser and in
  `check_external_command`; the result of the `malloc` of `add_job` is an input of `add_job`.
-/

namespace Jsh

/-! ## jsh.h -/

def MAX_LEN : Nat := 1000
def MAX_JOBS : Nat := 100
def MAX_ARGS : Nat := MAX_LEN / 2 + 1

inductive operator_t where
  | OP_NONE
  | OP_PIPE
  | OP_REDIRECT_OUT
  | OP_REDIRECT_APPEND
  | OP_REDIRECT_IN
deriving DecidableEq, Repr

open operator_t

/-- The struct `command_t`: `args` holds `args[0] .. args[argc-1]` as filled by the copy loop
(the slot `args[argc]` is the `NULL` terminator), `redirect_file = none` is `NULL`. -/
structure command_t where
  args : List String
  argc : Nat
  redirect_type : operator_t
  redirect_file : Option String
deriving DecidableEq, Repr

/-- The struct `pipeline_t`: `commands` are the slots written by the parse loop. -/
structure pipeline_t where
  commands : List command_t
  num_commands : Nat
deriving DecidableEq, Repr

/-! ## parser.c -/

/-- The function `is_builtin`, parser.c:4-7. -/
def is_builtin (cmd : String) : Bool :=
  cmd == "exit" || cmd == "cd" || cmd == "jobs" || cmd == "fg"

/-- The operator test of `validate_command_syntax`, parser.c:62-63. -/
def is_operator_token (s : String) : Bool :=
  s == "|" || s == ">" || s == ">>" || s == "<"

/-- The loop of `validate_command_syntax`, parser.c:57-69; `fuel` is `num_args - i`. -/
def validate_loop (args : List String) (num_args : Nat) : Nat → Nat → Int
  | 0, _ => 0
  | fuel + 1, i =>
    match args[i]? with
    | none => 0
    | some a =>
      if is_operator_token a && (i == 0 || i == num_args - 1 || args[i + 1]? == none) then -1
      else validate_loop args num_args fuel (i + 1)

/-- The function `validate_command_syntax`, parser.c:56-71. -/
def validate_command_syntax (args : List String) (num_args : Nat) : Int :=
  validate_loop args num_args num_args 0

/-- The function `get_operator_type`, parser.c:73-83. -/
def get_operator_type (str : String) : operator_t :=
  if str == "|" then OP_PIPE
  else if str == ">" then OP_REDIRECT_OUT
  else if str == ">>" then OP_REDIRECT_APPEND
  else if str == "<" then OP_REDIRECT_IN
  else OP_NONE

/-- The test `op == OP_REDIRECT_OUT || op == OP_REDIRECT_APPEND || op == OP_REDIRECT_IN`. -/
def is_redirect (op : operator_t) : Bool :=
  op == OP_REDIRECT_OUT || op == OP_REDIRECT_APPEND || op == OP_REDIRECT_IN

/-- The delimiter set `" \n"` handed to `strtok`, parser.c:94 and 97. -/
def is_delim (c : Char) : Bool :=
  c == ' ' || c == '\n'

/-- One call of `strtok(_, " \n")` on the remaining text: skip leading delimiters; if nothing is
left there is no token; otherwise the token is the run up to the next delimiter and scanning
resumes right after that delimiter. -/
def strtok (s : List Char) : Option (String × List Char) :=
  match s.dropWhile is_delim with
  | [] => none
  | c :: cs =>
    some (String.mk ((c :: cs).takeWhile (fun x => !is_delim x)),
          ((c :: cs).dropWhile (fun x => !is_delim x)).drop 1)

/-- The tokenizing loop, parser.c:94-98. `cur` is `args[num_args]` (with the text `strtok` has
left), `fuel` is `MAX_ARGS - 1 - num_args`. The result is `args[0 .. num_args-1]`. -/
def tokenize_loop : Nat → Option (String × List Char) → List String
  | _, none => []
  | 0, some _ => []
  | fuel + 1, some (t, rest) => t :: tokenize_loop fuel (strtok rest)

/-- The tokens `parse_command_line` works on: `args[0 .. num_args-1]` after parser.c:90-98. -/
def tokenize (command : List Char) : List String :=
  tokenize_loop (MAX_ARGS - 1) (strtok command)

/-- The pipe-counting loop, parser.c:112-117; `fuel` is `num_args - i`. -/
def count_pipes_loop (args : List String) : Nat → Nat → Nat → Nat
  | 0, _, pipe_count => pipe_count
  | fuel + 1, i, pipe_count =>
    count_pipes_loop args fuel (i + 1) (if args[i]? == some "|" then pipe_count + 1 else pipe_count)

/-- The result of the argument-counting loop: `cmd_argc`, `redirect_type`, `redirect_file`. -/
structure count_result where
  cmd_argc : Nat
  redirect_type : operator_t
  redirect_file : Option String
deriving DecidableEq, Repr

/-- The argument-counting loop, parser.c:138-152, for the segment `args[arg_start .. i-1]`;
`fuel` is `i - j`. An index outside `args` ends the loop (it cannot occur for `i ≤ num_args`). -/
def count_args_loop (args : List String) (i : Nat) : Nat → Nat → Nat → count_result
  | 0, _, cmd_argc => ⟨cmd_argc, OP_NONE, none⟩
  | fuel + 1, j, cmd_argc =>
    match args[j]? with
    | none => ⟨cmd_argc, OP_NONE, none⟩
    | some a =>
      let op := get_operator_type a
      if is_redirect op then
        ⟨cmd_argc, op, if j + 1 < i then args[j + 1]? else none⟩
      else if op == OP_NONE then count_args_loop args i fuel (j + 1) (cmd_argc + 1)
      else count_args_loop args i fuel (j + 1) cmd_argc

/-- The argument-copying loop, parser.c:157-168; `fuel` is `i - j`, the result is
`args[arg_idx ..]` of the command as filled from here on. -/
def copy_args_loop (args : List String) (cmd_argc : Nat) : Nat → Nat → Nat → List String
  | 0, _, _ => []
  | fuel + 1, j, arg_idx =>
    if arg_idx < cmd_argc then
      match args[j]? with
      | none => []
      | some a =>
        if is_redirect (get_operator_type a) then []
        else a :: copy_args_loop args cmd_argc fuel (j + 1) (arg_idx + 1)
    else []

/-- The body of the parse loop for one segment, parser.c:132-169: the command built from
`args[arg_start .. i-1]`. -/
def build_command (args : List String) (arg_start i : Nat) : command_t :=
  let r := count_args_loop args i (i - arg_start) arg_start 0
  { args := copy_args_loop args r.cmd_argc (i - arg_start) arg_start 0
    argc := r.cmd_argc
    redirect_type := r.redirect_type
    redirect_file := r.redirect_file }

/-- The parse loop, parser.c:130-174; `fuel` is `num_args + 1 - i`, `cmds` are
`commands[0 .. cmd_idx-1]`. -/
def parse_loop (args : List String) (num_args : Nat) :
    Nat → Nat → Nat → List command_t → List command_t
  | 0, _, _, cmds => cmds
  | fuel + 1, i, arg_start, cmds =>
    if i == num_args || args[i]? == some "|" then
      parse_loop args num_args fuel (i + 1) (i + 1) (cmds ++ [build_command args arg_start i])
    else parse_loop args num_args fuel (i + 1) arg_start cmds

/-- The function `parse_command_line`, parser.c:85-177; `none` is the `NULL` result. -/
def parse_command_line (command : List Char) : Option pipeline_t :=
  let args := tokenize command
  let num_args := args.length
  if num_args == 0 then none
  else if validate_command_syntax args num_args != 0 then none
  else
    let pipe_count := count_pipes_loop args num_args 0 0
    some { commands := parse_loop args num_args (num_args + 1) 0 0 []
           num_commands := pipe_count + 1 }

/-! ## jobs.h, jobs.c -/

inductive job_status_t where
  | JOB_RUNNING
  | JOB_STOPPED
  | JOB_TERMINATED
deriving DecidableEq, Repr

open job_status_t

/-- The struct `job_t`; `cmd` is the text the slot owns, `none` is the `NULL` pointer. -/
structure job_t where
  pid : Int
  cmd : Option String
  status : job_status_t
deriving DecidableEq, Repr

/-- The globals `job_t jobs[MAX_JOBS]` and `int num_jobs`: `jobs i` is the slot `jobs[i]`.
Slots at and after `num_jobs` hold stale data and are no part of the table. -/
structure job_table where
  jobs : Nat → job_t
  num_jobs : Nat

/-- The entries of the table, in index order: `jobs[0] .. jobs[num_jobs-1]`. -/
def job_table.entries (t : job_table) : List job_t :=
  (List.range t.num_jobs).map t.jobs

/-- The macros of `<sys/wait.h>` the code uses. The header belongs to the platform, not to the
repository, so the macros are a parameter of everything that reads a wait status. -/
structure wait_macros where
  WIFEXITED : Int → Bool
  WEXITSTATUS : Int → Int
  WIFSTOPPED : Int → Bool

/-- The function `add_job`, jobs.c:18-37: the new table and the returned int. `malloc_ok` tells
whether the `malloc` of jobs.c:21 returns a block; when it returns `NULL` that `NULL` has been
stored in the slot `jobs[num_jobs].cmd`, the count is left alone and -1 is returned. -/
def add_job (W : wait_macros) (malloc_ok : Bool) (t : job_table) (status : Int) (pid : Int)
    (cmdStr : String) : job_table × Int :=
  if W.WIFSTOPPED status then
    if t.num_jobs < MAX_JOBS then
      if !malloc_ok then
        ({ jobs := Function.update t.jobs t.num_jobs { t.jobs t.num_jobs with cmd := none }
           num_jobs := t.num_jobs }, -1)
      else
        ({ jobs := Function.update t.jobs t.num_jobs
                     { pid := pid, cmd := some cmdStr, status := JOB_STOPPED }
           num_jobs := t.num_jobs + 1 }, 0)
    else (t, -1)
  else (t, 0)

/-- The shifting loop of `remove_job`, jobs.c:49-51; `fuel` is `num_jobs - 1 - i`. -/
def shift_loop (num_jobs : Nat) : Nat → Nat → (Nat → job_t) → (Nat → job_t)
  | 0, _, jobs => jobs
  | fuel + 1, i, jobs =>
    if i < num_jobs - 1 then
      shift_loop num_jobs fuel (i + 1) (Function.update jobs i (jobs (i + 1)))
    else jobs

/-- The function `remove_job`, jobs.c:39-53. -/
def remove_job (t : job_table) (job_index : Int) : job_table :=
  if job_index < 0 || job_index >= (t.num_jobs : Int) then t
  else
    { jobs := shift_loop t.num_jobs (t.num_jobs - 1 - job_index.toNat) job_index.toNat t.jobs
      num_jobs := t.num_jobs - 1 }

/-! ## executor.c -/

/-- What the operating system answers to the shell process during one `execute_pipeline` call. -/
structure os_responses where
  /-- whether `access(path, X_OK) == 0` -/
  access_x_ok : String → Bool
  /-- whether `pipe(pipes[i]) != -1` -/
  pipe_ok : Nat → Bool
  /-- the value `fork()` returns in this process when stage `i` is spawned -/
  fork_ret : Nat → Int
  /-- the status `waitpid` stores for stage `i` -/
  wait_status : Nat → Int
  /-- whether the `malloc` inside `add_job` returns a block -/
  malloc_ok : Bool

/-- How a call ends for the process that made it. -/
inductive exec_outcome where
  /-- the function returns this value -/
  | returned (value : Int)
  /-- the function tail-calls `execute_builtin(args)` and returns its value -/
  | builtin (args : List String)
  /-- this process is the forked child of the stage; it replaces its image or exits -/
  | child (stage : Nat)
  /-- the call `strcmp(args[0], _)` of `is_builtin` gets the `NULL` in `args[0]` of the stage -/
  | null_deref (stage : Nat)
deriving DecidableEq, Repr

/-- The outcome of a call together with the stages `fork()` was called for, in order, and the
job table afterwards. -/
structure exec_result where
  outcome : exec_outcome
  forks : List Nat
  table : job_table

/-- The function `check_external_command`, executor.c:4-22, for a non-`NULL` name. -/
def check_external_command (os : os_responses) (cmd : String) : Int :=
  if cmd.data.head? != some '/' && cmd.data.head? != some '.' && !cmd.data.contains '/' then
    if os.access_x_ok ("/usr/bin/" ++ cmd) then 0 else -1
  else 0

/-- The function `execute_single_command`, executor.c:77-113, for a non-`NULL` `cmd` with non-`NULL` `args`. -/
def execute_single_command (W : wait_macros) (os : os_responses) (cmd : command_t)
    (t : job_table) : exec_result :=
  match cmd.args.head? with
  | none => ⟨.returned (-1), [], t⟩
  | some name =>
    if is_builtin name then ⟨.builtin cmd.args, [], t⟩
    else if check_external_command os name != 0 then ⟨.returned (-1), [], t⟩
    else
      let pid := os.fork_ret 0
      if pid == 0 then ⟨.child 0, [0], t⟩
      else if pid > 0 then ⟨.returned (W.WEXITSTATUS (os.wait_status 0)), [0], t⟩
      else ⟨.returned (-1), [0], t⟩

/-- The pipe-creating loop, executor.c:131-136: `true` when every `pipe` call succeeds;
`fuel` is `num_pipes - i`. -/
def create_pipes_loop (os : os_responses) : Nat → Nat → Bool
  | 0, _ => true
  | fuel + 1, i => if os.pipe_ok i then create_pipes_loop os fuel (i + 1) else false

/-- The spawning loop, executor.c:139-198; `fuel` is `num_commands - i`, `forks` are the stages
forked so far. `none` means the loop ran to its end; `some r` that it left the function. -/
def spawn_loop (os : os_responses) (pipeline : pipeline_t) (t : job_table) :
    Nat → Nat → List Nat → Option exec_result × List Nat
  | 0, _, forks => (none, forks)
  | fuel + 1, i, forks =>
    match pipeline.commands[i]? with
    | none => (some ⟨.null_deref i, forks, t⟩, forks)
    | some cmd =>
      match cmd.args.head? with
      | none => (some ⟨.null_deref i, forks, t⟩, forks)
      | some name =>
        if is_builtin name then (some ⟨.returned (-1), forks, t⟩, forks)
        else
          let pid := os.fork_ret i
          if pid == 0 then (some ⟨.child i, forks ++ [i], t⟩, forks ++ [i])
          else if pid < 0 then (some ⟨.returned (-1), forks ++ [i], t⟩, forks ++ [i])
          else spawn_loop os pipeline t fuel (i + 1) (forks ++ [i])

/-- The waiting loop, executor.c:207-217; `fuel` is `num_commands - i`. The result is the table
and `last_status`. -/
def wait_loop (W : wait_macros) (os : os_responses) (pipeline : pipeline_t)
    (original_cmd : String) : Nat → Nat → job_table → Int → job_table × Int
  | 0, _, t, last_status => (t, last_status)
  | fuel + 1, i, t, last_status =>
    let status := os.wait_status i
    if i == pipeline.num_commands - 1 then
      wait_loop W os pipeline original_cmd fuel (i + 1)
        (add_job W os.malloc_ok t status (os.fork_ret i) original_cmd).1 status
    else wait_loop W os pipeline original_cmd fuel (i + 1) t last_status

/-- The function `execute_pipeline`, executor.c:115-220; `pipeline = none` is the `NULL` pointer.
The parser stores exactly `num_commands` commands, so the lookups `commands[i]?` below
`num_commands` always find one on a parsed pipeline. -/
def execute_pipeline (W : wait_macros) (os : os_responses) (pipeline : Option pipeline_t)
    (original_cmd : String) (t : job_table) : exec_result :=
  match pipeline with
  | none => ⟨.returned (-1), [], t⟩
  | some pl =>
    if pl.num_commands == 0 then ⟨.returned (-1), [], t⟩
    else if pl.num_commands == 1 then
      match pl.commands[0]? with
      | none => ⟨.returned (-1), [], t⟩
      | some cmd => execute_single_command W os cmd t
    else
      let num_pipes := pl.num_commands - 1
      if !create_pipes_loop os num_pipes 0 then ⟨.returned (-1), [], t⟩
      else
        match spawn_loop os pl t pl.num_commands 0 [] with
        | (some r, _) => r
        | (none, forks) =>
          let w := wait_loop W os pl original_cmd pl.num_commands 0 t 0
          ⟨.returned (if W.WIFEXITED w.2 then W.WEXITSTATUS w.2 else -1), forks, w.1⟩

/-- Modelled from the spec: the wait-status macros come from the platform header
`<sys/wait.h>`, which is no part of the repository. The spec only says that a status tells a
normal exit (with an exit status 0-255) from a stop and from a death by signal; this instance
is the Linux layout: the low seven bits are the terminating signal (0 for a normal exit), the
low byte `0x7f` marks a stop, the second byte is the exit status or the stopping signal. -/
def linux_wait_macros : wait_macros where
  WIFEXITED := fun s => s % 128 == 0
  WEXITSTATUS := fun s => (s / 256) % 256
  WIFSTOPPED := fun s => s % 256 == 127

/-! ## Specification-side definitions -/

/-- The maximal runs of characters of `s` that are no separators, in order: `s` is split at
every separator and the empty pieces are dropped. -/
def maximal_runs (sep : Char → Bool) (s : List Char) : List (List Char) :=
  (s.splitOnP sep).filter (fun r => !r.isEmpty)

/-- Whitespace as the claim about tokens reads it: space, tab and newline. -/
def spec_whitespace (c : Char) : Bool :=
  c == ' ' || c == '\t' || c == '\n'

/-- The argument-counting loop read on the segment `args[arg_start .. i-1]` as a list. -/
def seg_count : List String → Nat → count_result
  | [], c => ⟨c, OP_NONE, none⟩
  | a :: rest, c =>
    if is_redirect (get_operator_type a) then ⟨c, get_operator_type a, rest.head?⟩
    else if get_operator_type a == OP_NONE then seg_count rest (c + 1)
    else seg_count rest c

/-- The argument-copying loop read on the segment as a list. -/
def seg_copy (cmd_argc : Nat) : List String → Nat → List String
  | [], _ => []
  | a :: rest, arg_idx =>
    if arg_idx < cmd_argc then
      if is_redirect (get_operator_type a) then []
      else a :: seg_copy cmd_argc rest (arg_idx + 1)
    else []

/-- The command the loop body builds from a segment given as a list. -/
def seg_command (seg : List String) : command_t :=
  { args := seg_copy (seg_count seg 0).cmd_argc seg 0
    argc := (seg_count seg 0).cmd_argc
    redirect_type := (seg_count seg 0).redirect_type
    redirect_file := (seg_count seg 0).redirect_file }

/-- A table of three stopped jobs with process ids 1, 2, 3. -/
def sample_table : job_table :=
  { jobs := fun i => { pid := (i : Int) + 1, cmd := some "sleep 60 | cat", status := JOB_STOPPED }
    num_jobs := 3 }

/-- The empty job table. -/
def empty_table : job_table :=
  { jobs := fun _ => { pid := 0, cmd := none, status := JOB_RUNNING }
    num_jobs := 0 }

/-- An operating system in which every program is found, every `pipe`, `fork` and `malloc`
succeeds (stage `i` gets process id `100 + i`) and every child ends with wait status `st`. -/
def os_with_status (st : Int) : os_responses :=
  { access_x_ok := fun _ => true
    pipe_ok := fun _ => true
    fork_ret := fun i => 100 + (i : Int)
    wait_status := fun _ => st
    malloc_ok := true }

/-- A full table: `MAX_JOBS` stopped jobs. -/
def full_table : job_table :=
  { jobs := fun i => { pid := (i : Int) + 1, cmd := some "sleep 60 | cat", status := JOB_STOPPED }
    num_jobs := MAX_JOBS }

/-! ## The tokenizer -/

theorem maximal_runs_nil (sep : Char → Bool) : maximal_runs sep [] = [] := by
  simp [maximal_runs]

theorem maximal_runs_cons_sep (sep : Char → Bool) (x : Char) (xs : List Char)
    (h : sep x = true) : maximal_runs sep (x :: xs) = maximal_runs sep xs := by
  simp [maximal_runs, List.splitOnP_cons, h]

theorem maximal_runs_dropWhile (sep : Char → Bool) (s : List Char) :
    maximal_runs sep (s.dropWhile sep) = maximal_runs sep s := by
  induction s with
  | nil => rfl
  | cons x xs ih =>
    by_cases h : sep x = true
    · rw [List.dropWhile_cons_of_pos h, ih, maximal_runs_cons_sep sep x xs h]
    · rw [List.dropWhile_cons_of_neg h]

theorem maximal_runs_token (sep : Char → Bool) (c : Char) (cs : List Char)
    (hc : sep c = false) :
    maximal_runs sep (c :: cs)
      = (c :: cs).takeWhile (fun x => !sep x)
        :: maximal_runs sep (((c :: cs).dropWhile (fun x => !sep x)).drop 1) := by
  have hsplit := List.takeWhile_append_dropWhile (fun x => !sep x) (c :: cs)
  have htok : ∀ x ∈ (c :: cs).takeWhile (fun x => !sep x), ¬ sep x = true := by
    intro x hx
    have := List.mem_takeWhile_imp hx
    simpa using this
  have hne : (c :: cs).takeWhile (fun x => !sep x) ≠ [] := by
    simp [List.takeWhile_cons, hc]
  cases hrest : (c :: cs).dropWhile (fun x => !sep x) with
  | nil =>
    rw [hrest, List.append_nil] at hsplit
    rw [hsplit] at htok hne ⊢
    rw [maximal_runs, List.splitOnP_eq_single sep _ htok]
    simp [maximal_runs_nil, hne]
  | cons d r =>
    have hd : sep d = true := by
      have := List.head_dropWhile_not (fun x => !sep x) (c :: cs) (by rw [hrest]; simp)
      simp only [hrest, List.head_cons] at this
      simpa using this
    rw [hrest] at hsplit
    conv_lhs => rw [← hsplit]
    rw [maximal_runs, List.splitOnP_first sep _ htok d hd r]
    simp [maximal_runs, hne]

theorem strtok_none (s : List Char) (h : strtok s = none) : maximal_runs is_delim s = [] := by
  unfold strtok at h
  cases hd : s.dropWhile is_delim with
  | nil => rw [← maximal_runs_dropWhile, hd, maximal_runs_nil]
  | cons c cs => rw [hd] at h; simp at h

theorem strtok_some (s : List Char) (t : String) (rest : List Char)
    (h : strtok s = some (t, rest)) :
    maximal_runs is_delim s = t.data :: maximal_runs is_delim rest := by
  unfold strtok at h
  cases hd : s.dropWhile is_delim with
  | nil => rw [hd] at h; simp at h
  | cons c cs =>
    rw [hd] at h
    simp only [Option.some.injEq, Prod.mk.injEq] at h
    obtain ⟨ht, hr⟩ := h
    have hc : is_delim c = false := by
      have := List.head_dropWhile_not is_delim s (by rw [hd]; simp)
      simp only [hd, List.head_cons] at this
      simpa using this
    rw [← maximal_runs_dropWhile, hd, maximal_runs_token is_delim c cs hc, ← ht, ← hr]

theorem tokenize_loop_eq (fuel : Nat) (s : List Char) :
    tokenize_loop fuel (strtok s) = ((maximal_runs is_delim s).take fuel).map String.mk := by
  induction fuel generalizing s with
  | zero =>
    cases h : strtok s with
    | none => simp [tokenize_loop]
    | some p => simp [tokenize_loop]
  | succ f ih =>
    cases h : strtok s with
    | none => simp [tokenize_loop, strtok_none s h]
    | some p =>
      obtain ⟨t, rest⟩ := p
      rw [strtok_some s t rest h]
      simp [tokenize_loop, ih rest]

theorem splitOnP_length_sum (sep : Char → Bool) (s : List Char) :
    ((s.splitOnP sep).map List.length).sum + (s.splitOnP sep).length = s.length + 1 := by
  induction s with
  | nil => simp
  | cons x xs ih =>
    rw [List.splitOnP_cons]
    by_cases h : sep x = true
    · simp only [h, if_true, List.map_cons, List.sum_cons, List.length_cons, List.length_nil]
      omega
    · simp only [h, if_false, Bool.false_eq_true]
      cases hL : xs.splitOnP sep with
      | nil => exact absurd hL (List.splitOnP_ne_nil sep xs)
      | cons a l =>
        rw [hL] at ih
        simp only [List.modifyHead, List.map_cons, List.sum_cons, List.length_cons] at ih ⊢
        omega

theorem nonempty_pieces_le_sum (L : List (List Char)) :
    (L.filter (fun r => !r.isEmpty)).length ≤ (L.map List.length).sum := by
  induction L with
  | nil => simp
  | cons a l ih =>
    cases a with
    | nil => simpa using ih
    | cons c cs =>
      simp only [List.filter_cons, List.isEmpty_cons, Bool.not_false, if_true, List.length_cons,
        List.map_cons, List.sum_cons]
      omega

theorem maximal_runs_length_le (sep : Char → Bool) (s : List Char) :
    2 * (maximal_runs sep s).length ≤ s.length + 1 := by
  have h1 := splitOnP_length_sum sep s
  have h2 := nonempty_pieces_le_sum (s.splitOnP sep)
  have h3 : (maximal_runs sep s).length ≤ (s.splitOnP sep).length := List.length_filter_le _ _
  unfold maximal_runs at h3 ⊢
  omega

theorem tokenize_eq_take (line : List Char) :
    tokenize line = ((maximal_runs is_delim line).take (MAX_ARGS - 1)).map String.mk :=
  tokenize_loop_eq (MAX_ARGS - 1) line

theorem tokenize_eq_of_short (line : List Char) (h : line.length < MAX_LEN) :
    tokenize line = (maximal_runs is_delim line).map String.mk := by
  rw [tokenize_eq_take, List.take_of_length_le]
  have := maximal_runs_length_le is_delim line
  have h1 : MAX_LEN = 1000 := rfl
  have h2 : MAX_ARGS = 501 := rfl
  omega

/-! ## The loops of the parser read on lists -/

theorem count_args_loop_eq (args : List String) (i : Nat) (hi : i ≤ args.length) :
    ∀ (fuel j c : Nat), j + fuel = i →
      count_args_loop args i fuel j c = seg_count ((args.drop j).take fuel) c := by
  intro fuel
  induction fuel with
  | zero => intro j c _; simp [count_args_loop, seg_count]
  | succ f ih =>
    intro j c hj
    have hlt : j < args.length := by omega
    have hget : args[j]? = some args[j] := List.getElem?_eq_getElem hlt
    have hdrop : args.drop j = args[j] :: args.drop (j + 1) := List.drop_eq_getElem_cons hlt
    have hhead : ((args.drop (j + 1)).take f).head? = if j + 1 < i then args[j + 1]? else none := by
      cases f with
      | zero =>
        have : ¬ j + 1 < i := by omega
        simp [this]
      | succ f2 =>
        have : j + 1 < i := by omega
        simp [this, List.head?_take, List.head?_drop]
    rw [hdrop, List.take_succ_cons]
    simp only [count_args_loop, seg_count, hget]
    rw [hhead, ih (j + 1) (c + 1) (by omega), ih (j + 1) c (by omega)]

theorem copy_args_loop_eq (args : List String) (cmd_argc : Nat) :
    ∀ (fuel j arg_idx : Nat), j + fuel ≤ args.length →
      copy_args_loop args cmd_argc fuel j arg_idx
        = seg_copy cmd_argc ((args.drop j).take fuel) arg_idx := by
  intro fuel
  induction fuel with
  | zero => intro j c _; simp [copy_args_loop, seg_copy]
  | succ f ih =>
    intro j c hj
    have hlt : j < args.length := by omega
    have hget : args[j]? = some args[j] := List.getElem?_eq_getElem hlt
    have hdrop : args.drop j = args[j] :: args.drop (j + 1) := List.drop_eq_getElem_cons hlt
    rw [hdrop, List.take_succ_cons]
    simp only [copy_args_loop, seg_copy, hget]
    rw [ih (j + 1) (c + 1) (by omega)]

theorem build_command_eq (args : List String) (arg_start i : Nat) (h1 : arg_start ≤ i)
    (h2 : i ≤ args.length) :
    build_command args arg_start i = seg_command ((args.drop arg_start).take (i - arg_start)) := by
  unfold build_command seg_command
  simp only
  rw [count_args_loop_eq args i h2 (i - arg_start) arg_start 0 (by omega),
    copy_args_loop_eq args _ (i - arg_start) arg_start 0 (by omega)]

theorem drop_split_at (args : List String) (s i : Nat) (hs : s ≤ i) (hi : i < args.length) :
    args.drop s = (args.drop s).take (i - s) ++ args[i] :: args.drop (i + 1) := by
  have h1 : args.drop s = (args.drop s).take (i - s) ++ (args.drop s).drop (i - s) :=
    (List.take_append_drop _ _).symm
  have h2 : (args.drop s).drop (i - s) = args.drop i := by
    rw [List.drop_drop]; congr 1; omega
  rw [h2, List.drop_eq_getElem_cons hi] at h1
  exact h1

theorem parse_loop_eq (args : List String) :
    ∀ (fuel i s : Nat) (cmds : List command_t), i + fuel = args.length + 1 → i ≤ args.length →
      s ≤ i → (∀ x ∈ (args.drop s).take (i - s), x ≠ "|") →
      parse_loop args args.length fuel i s cmds
        = cmds ++ ((args.drop s).splitOn "|").map seg_command := by
  intro fuel
  induction fuel with
  | zero => intro i s cmds h1 h2; omega
  | succ f ih =>
    intro i s cmds h1 h2 h3 h4
    rcases Nat.lt_or_ge i args.length with hlt | hge
    · have hget : args[i]? = some args[i] := List.getElem?_eq_getElem hlt
      have hsplit := drop_split_at args s i h3 hlt
      have hne : (i == args.length) = false := by simp; omega
      by_cases hp : args[i] = "|"
      · have hcond : (i == args.length || args[i]? == some "|") = true := by
          simp [hget, hp]
        rw [parse_loop, if_pos hcond, ih (i + 1) (i + 1) _ (by omega) (by omega) (by omega)
          (by simp), build_command_eq args s i h3 (by omega)]
        have hfirst : (args.drop s).splitOn "|"
            = (args.drop s).take (i - s) :: (args.drop (i + 1)).splitOn "|" := by
          conv_lhs => rw [hsplit]
          unfold List.splitOn
          exact List.splitOnP_first _ _ (by simpa using h4) _ (by simp [hp]) _
        rw [hfirst]
        simp
      · have hcond : ¬ (i == args.length || args[i]? == some "|") = true := by
          simp [hget, hp]; omega
        rw [parse_loop, if_neg hcond]
        apply ih (i + 1) s cmds (by omega) (by omega) (by omega)
        intro x hx
        have : (args.drop s).take (i + 1 - s) = (args.drop s).take (i - s) ++ [args[i]] := by
          have e1 : i + 1 - s = (i - s) + 1 := by omega
          have e2 : s + (i - s) = i := by omega
          rw [e1, List.take_succ, List.getElem?_drop, e2, hget]
          rfl
        rw [this, List.mem_append] at hx
        rcases hx with hx | hx
        · exact h4 x hx
        · simp at hx; rw [hx]; exact hp
    · have hi : i = args.length := by omega
      have hf : f = 0 := by omega
      subst hf
      have hcond : (i == args.length || args[i]? == some "|") = true := by simp [hi]
      rw [parse_loop, if_pos hcond, parse_loop, build_command_eq args s i h3 (by omega)]
      have htake : (args.drop s).take (i - s) = args.drop s := by
        apply List.take_of_length_le; rw [List.length_drop]; omega
      rw [htake] at h4 ⊢
      have : (args.drop s).splitOn "|" = [args.drop s] := by
        unfold List.splitOn
        exact List.splitOnP_eq_single _ _ (by simpa using h4)
      rw [this]
      simp

theorem count_pipes_loop_eq (args : List String) :
    ∀ (fuel i c : Nat), i + fuel = args.length →
      count_pipes_loop args fuel i c = c + (args.drop i).count "|" := by
  intro fuel
  induction fuel with
  | zero =>
    intro i c h
    simp [count_pipes_loop, List.drop_of_length_le (show args.length ≤ i by omega)]
  | succ f ih =>
    intro i c h
    have hlt : i < args.length := by omega
    have hget : args[i]? = some args[i] := List.getElem?_eq_getElem hlt
    rw [count_pipes_loop, ih (i + 1) _ (by omega), List.drop_eq_getElem_cons hlt, hget,
      List.count_cons]
    by_cases hp : args[i] = "|"
    · simp [hp]; omega
    · simp [hp]

theorem parse_command_line_some (line : List Char) (p : pipeline_t)
    (h : parse_command_line line = some p) :
    tokenize line ≠ [] ∧ validate_command_syntax (tokenize line) (tokenize line).length = 0 ∧
    p.commands = ((tokenize line).splitOn "|").map seg_command ∧
    p.num_commands = (tokenize line).count "|" + 1 := by
  unfold parse_command_line at h
  simp only at h
  split at h
  · exact absurd h (by simp)
  · rename_i h0
    split at h
    · exact absurd h (by simp)
    · rename_i hv
      simp only [Option.some.injEq] at h
      subst h
      refine ⟨?_, ?_, ?_, ?_⟩
      · intro hnil; simp [hnil] at h0
      · simpa using hv
      · simp only
        rw [parse_loop_eq (tokenize line) _ 0 0 [] (by omega) (by omega) (by omega) (by simp)]
        simp
      · simp only
        rw [count_pipes_loop_eq (tokenize line) _ 0 0 (by omega)]
        simp

theorem validate_loop_bad (args : List String) :
    ∀ (fuel i : Nat), i + fuel = args.length →
      (∃ k a, i ≤ k ∧ args[k]? = some a ∧ is_operator_token a = true ∧
        (k = 0 ∨ k + 1 = args.length)) →
      validate_loop args args.length fuel i = -1 := by
  intro fuel
  induction fuel with
  | zero =>
    intro i h1 h2
    obtain ⟨k, a, hk, hget, _, _⟩ := h2
    have : k < args.length := by
      rcases Nat.lt_or_ge k args.length with h | h
      · exact h
      · rw [List.getElem?_eq_none h] at hget; exact absurd hget (by simp)
    omega
  | succ f ih =>
    intro i h1 h2
    have hlt : i < args.length := by omega
    have hget : args[i]? = some args[i] := List.getElem?_eq_getElem hlt
    rw [validate_loop, hget]
    simp only
    by_cases hcond : (is_operator_token args[i]
        && (i == 0 || i == args.length - 1 || args[i + 1]? == none)) = true
    · rw [if_pos hcond]
    · rw [if_neg hcond]
      apply ih (i + 1) (by omega)
      obtain ⟨k, a, hk, hka, hop, hb⟩ := h2
      refine ⟨k, a, ?_, hka, hop, hb⟩
      rcases Nat.lt_or_ge i k with h | h
      · exact h
      · exfalso
        have hik : i = k := by omega
        subst hik
        rw [hget] at hka
        simp only [Option.some.injEq] at hka
        apply hcond
        simp only [Bool.and_eq_true, Bool.or_eq_true, beq_iff_eq]
        refine ⟨by rw [hka]; exact hop, ?_⟩
        rcases hb with hb | hb
        · exact Or.inl (Or.inl hb)
        · exact Or.inl (Or.inr (by omega))

theorem mem_operators_iff (t : String) :
    t ∈ ["|", ">", ">>", "<"] ↔ is_operator_token t = true := by
  simp [is_operator_token, or_assoc]

/-! ## Segments -/

theorem splitOn_mem (a : String) (l : List String) :
    ∀ seg ∈ l.splitOn a, ∀ x ∈ seg, x ∈ l ∧ x ≠ a := by
  unfold List.splitOn
  induction l with
  | nil => intro seg hseg x hx; simp at hseg; subst hseg; simp at hx
  | cons y ys ih =>
    intro seg hseg x hx
    rw [List.splitOnP_cons] at hseg
    by_cases hy : (y == a) = true
    · simp only [hy, if_true, List.mem_cons] at hseg
      rcases hseg with hseg | hseg
      · subst hseg; simp at hx
      · have := ih seg hseg x hx
        exact ⟨List.mem_cons_of_mem _ this.1, this.2⟩
    · simp only [hy, if_false, Bool.false_eq_true] at hseg
      cases hL : List.splitOnP (fun x => x == a) ys with
      | nil => exact absurd hL (List.splitOnP_ne_nil _ ys)
      | cons h t =>
        rw [hL] at hseg ih
        simp only [List.modifyHead, List.mem_cons] at hseg
        rcases hseg with hseg | hseg
        · subst hseg
          simp only [List.mem_cons] at hx
          rcases hx with hx | hx
          · subst hx; exact ⟨List.mem_cons_self _ _, by simpa using hy⟩
          · have := ih h (List.mem_cons_self _ _) x hx
            exact ⟨List.mem_cons_of_mem _ this.1, this.2⟩
        · have := ih seg (List.mem_cons_of_mem _ hseg) x hx
          exact ⟨List.mem_cons_of_mem _ this.1, this.2⟩

theorem get_operator_type_plain (w : String)
    (h : w ≠ "|" ∧ w ≠ ">" ∧ w ≠ ">>" ∧ w ≠ "<") : get_operator_type w = OP_NONE := by
  simp [get_operator_type, h.1, h.2.1, h.2.2.1, h.2.2.2]

theorem seg_count_plain (ws rest : List String) (c : Nat)
    (h : ∀ w ∈ ws, get_operator_type w = OP_NONE) :
    seg_count (ws ++ rest) c = seg_count rest (c + ws.length) := by
  induction ws generalizing c with
  | nil => simp
  | cons w ws ih =>
    have hw := h w (List.mem_cons_self _ _)
    rw [List.cons_append, seg_count, hw]
    simp only [is_redirect, List.length_cons]
    rw [show c + (ws.length + 1) = c + 1 + ws.length by omega]
    simpa using ih (c + 1) (fun x hx => h x (List.mem_cons_of_mem _ hx))

theorem seg_copy_plain (cmd_argc : Nat) (ws rest : List String) (c : Nat)
    (h : ∀ w ∈ ws, get_operator_type w = OP_NONE) (hc : c + ws.length ≤ cmd_argc) :
    seg_copy cmd_argc (ws ++ rest) c = ws ++ seg_copy cmd_argc rest (c + ws.length) := by
  induction ws generalizing c with
  | nil => simp
  | cons w ws ih =>
    have hw := h w (List.mem_cons_self _ _)
    simp only [List.length_cons] at hc
    have hlt : c < cmd_argc := by omega
    rw [List.cons_append, seg_copy, if_pos hlt, hw]
    simp only [is_redirect, List.length_cons]
    rw [show c + (ws.length + 1) = c + 1 + ws.length by omega]
    simpa using ih (c + 1) (fun x hx => h x (List.mem_cons_of_mem _ hx)) (by omega)

theorem seg_command_redirect (ws : List String) (o f : String) (rs : List String)
    (h : ∀ w ∈ ws, get_operator_type w = OP_NONE)
    (ho : is_redirect (get_operator_type o) = true) :
    seg_command (ws ++ o :: f :: rs)
      = { args := ws, argc := ws.length, redirect_type := get_operator_type o,
          redirect_file := some f } := by
  have h1 : seg_count (ws ++ o :: f :: rs) 0 = ⟨ws.length, get_operator_type o, some f⟩ := by
    rw [seg_count_plain ws _ 0 h, seg_count, if_pos ho]
    simp
  have h2 : seg_copy ws.length (ws ++ o :: f :: rs) 0 = ws := by
    rw [seg_copy_plain ws.length ws _ 0 h (by omega), seg_copy]
    simp
  simp [seg_command, h1, h2]

/-! ## The parser: claims -/

theorem getElem?_mem_of_some (l : List String) (k : Nat) (a : String) (h : l[k]? = some a) :
    a ∈ l ∧ k < l.length := by
  rcases Nat.lt_or_ge k l.length with hk | hk
  · rw [List.getElem?_eq_getElem hk] at h
    simp only [Option.some.injEq] at h
    exact ⟨h ▸ List.getElem_mem hk, hk⟩
  · rw [List.getElem?_eq_none hk] at h; exact absurd h (by simp)

/-- C2. When a line is accepted and its `k`-th segment between `|` tokens reads
`w1 .. wn OP f r1 .. rm`, with no redirection operator among the `w` and `OP` one of `>`, `>>`,
`<`, the `k`-th command of the pipeline is exactly: arguments `w1 .. wn`, `argc = n`, kind
`OP_REDIRECT_OUT` for `>`, `OP_REDIRECT_APPEND` for `>>`, `OP_REDIRECT_IN` for `<`, and filename
`f`. The command has no other component, so the tokens `r1 .. rm` are dropped. -/
theorem parse_redirect_segment (line : List Char) (p : pipeline_t)
    (h : parse_command_line line = some p)
    (k : Nat) (ws : List String) (o f : String) (rs : List String)
    (hseg : ((tokenize line).splitOn "|")[k]? = some (ws ++ o :: f :: rs))
    (hws : ∀ w ∈ ws, w ≠ ">" ∧ w ≠ ">>" ∧ w ≠ "<")
    (ho : o = ">" ∨ o = ">>" ∨ o = "<") :
    p.commands[k]? = some
      { args := ws
        argc := ws.length
        redirect_type :=
          if o = ">" then OP_REDIRECT_OUT
          else if o = ">>" then OP_REDIRECT_APPEND else OP_REDIRECT_IN
        redirect_file := some f } := by
  obtain ⟨_, _, hcmds, _⟩ := parse_command_line_some line p h
  have hk : k < ((tokenize line).splitOn "|").length := by
    rcases Nat.lt_or_ge k ((tokenize line).splitOn "|").length with hk | hk
    · exact hk
    · rw [List.getElem?_eq_none hk] at hseg; exact absurd hseg (by simp)
  have hmem : ws ++ o :: f :: rs ∈ (tokenize line).splitOn "|" := by
    rw [List.getElem?_eq_getElem hk] at hseg
    simp only [Option.some.injEq] at hseg
    exact hseg ▸ List.getElem_mem hk
  have hplain : ∀ w ∈ ws, get_operator_type w = OP_NONE := by
    intro w hw
    have := splitOn_mem "|" (tokenize line) _ hmem w (List.mem_append_left _ hw)
    have hr := hws w hw
    exact get_operator_type_plain w ⟨this.2, hr.1, hr.2.1, hr.2.2⟩
  have hop : get_operator_type o
      = if o = ">" then OP_REDIRECT_OUT
        else if o = ">>" then OP_REDIRECT_APPEND else OP_REDIRECT_IN := by
    rcases ho with ho | ho | ho <;> subst ho <;> decide
  have hred : is_redirect (get_operator_type o) = true := by
    rcases ho with ho | ho | ho <;> subst ho <;> decide
  rw [hcmds, List.getElem?_map, hseg, Option.map_some', seg_command_redirect ws o f rs hplain hred,
    hop]

theorem parse_redirect_segment_witness :
    parse_command_line "echo hi > out.txt extra".toList
      = some { commands := [⟨["echo", "hi"], 2, OP_REDIRECT_OUT, some "out.txt"⟩]
               num_commands := 1 } ∧
    ({ commands := [⟨["echo", "hi"], 2, OP_REDIRECT_OUT, some "out.txt"⟩]
       num_commands := 1 } : pipeline_t).commands[0]? = some
      { args := ["echo", "hi"]
        argc := ["echo", "hi"].length
        redirect_type :=
          if ">" = ">" then OP_REDIRECT_OUT
          else if ">" = ">>" then OP_REDIRECT_APPEND else OP_REDIRECT_IN
        redirect_file := some "out.txt" } :=
  ⟨by decide,
   parse_redirect_segment "echo hi > out.txt extra".toList _ (by decide) 0 ["echo", "hi"] ">"
     "out.txt" ["extra"] (by decide) (by decide) (by decide)⟩

/-- C3. A line whose first token or whose last token is one of `|`, `>`, `>>`, `<` is rejected:
the function `validate_command_syntax` returns -1 on its tokens and `parse_command_line`
returns no pipeline. -/
theorem parse_rejects_boundary_operator (line : List Char) (t : String)
    (ht : t ∈ ["|", ">", ">>", "<"])
    (h : (tokenize line).head? = some t ∨ (tokenize line).getLast? = some t) :
    validate_command_syntax (tokenize line) (tokenize line).length = -1 ∧
    parse_command_line line = none := by
  have hop := (mem_operators_iff t).mp ht
  have hv : validate_command_syntax (tokenize line) (tokenize line).length = -1 := by
    apply validate_loop_bad (tokenize line) _ 0 (by omega)
    rcases h with h | h
    · rw [List.head?_eq_getElem?] at h
      exact ⟨0, t, Nat.le_refl 0, h, hop, Or.inl rfl⟩
    · rw [List.getLast?_eq_getElem?] at h
      have := (getElem?_mem_of_some _ _ t h).2
      exact ⟨_, t, Nat.zero_le _, h, hop, Or.inr (by omega)⟩
  refine ⟨hv, ?_⟩
  unfold parse_command_line
  simp only [hv]
  split
  · rfl
  · rfl

theorem parse_rejects_boundary_operator_witness :
    ( validate_command_syntax (tokenize "| ls".toList) (tokenize "| ls".toList).length = -1 ∧
      parse_command_line "| ls".toList = none) ∧
    ( validate_command_syntax (tokenize "ls |".toList) (tokenize "ls |".toList).length = -1 ∧
      parse_command_line "ls |".toList = none) ∧
    ( validate_command_syntax (tokenize "ls > ".toList) (tokenize "ls > ".toList).length = -1 ∧
      parse_command_line "ls > ".toList = none) :=
  ⟨parse_rejects_boundary_operator "| ls".toList "|" (by decide) (Or.inl (by decide)),
   parse_rejects_boundary_operator "ls |".toList "|" (by decide) (Or.inr (by decide)),
   parse_rejects_boundary_operator "ls > ".toList ">" (by decide) (Or.inr (by decide))⟩

theorem seg_count_file_kind (seg : List String) (c : Nat) :
    (seg_count seg c).redirect_file ≠ none → (seg_count seg c).redirect_type ≠ OP_NONE := by
  induction seg generalizing c with
  | nil => intro h; simp [seg_count] at h
  | cons a rest ih =>
    intro h
    rw [seg_count] at h ⊢
    by_cases hr : is_redirect (get_operator_type a) = true
    · rw [if_pos hr]
      intro hnone
      simp only at hnone
      rw [hnone] at hr
      exact absurd hr (by decide)
    · rw [if_neg hr] at h ⊢
      by_cases hn : (get_operator_type a == OP_NONE) = true
      · rw [if_pos hn] at h ⊢; exact ih (c + 1) h
      · rw [if_neg hn] at h ⊢; exact ih c h

theorem parse_file_implies_kind (line : List Char) (p : pipeline_t)
    (h : parse_command_line line = some p) :
    ∀ c ∈ p.commands, c.redirect_file ≠ none → c.redirect_type ≠ OP_NONE := by
  obtain ⟨_, _, hcmds, _⟩ := parse_command_line_some line p h
  intro c hc
  rw [hcmds, List.mem_map] at hc
  obtain ⟨seg, _, rfl⟩ := hc
  exact seg_count_file_kind seg 0

/-- C4. The line `ls | | wc` is accepted and its middle command has an empty argument list,
`argc = 0`: the slot `args[0]` is the `NULL` terminator. Run by `execute_pipeline`, that `NULL`
reaches the `strcmp` of `is_builtin` after the first stage has been forked. -/
theorem parse_empty_argument_list :
    parse_command_line "ls | | wc".toList
      = some { commands := [⟨["ls"], 1, OP_NONE, none⟩, ⟨[], 0, OP_NONE, none⟩,
                            ⟨["wc"], 1, OP_NONE, none⟩]
               num_commands := 3 } ∧
    (execute_pipeline linux_wait_macros (os_with_status 0)
      (parse_command_line "ls | | wc".toList) "ls | | wc" empty_table).outcome
      = exec_outcome.null_deref 1 := by
  constructor
  · decide
  · decide

/-- C5. The line `ls > | wc` is accepted and its first command has redirection kind
`OP_REDIRECT_OUT` and no filename (`redirect_file` is `NULL`). -/
theorem parse_redirect_without_file :
    parse_command_line "ls > | wc".toList
      = some { commands := [⟨["ls"], 1, OP_REDIRECT_OUT, none⟩, ⟨["wc"], 1, OP_NONE, none⟩]
               num_commands := 2 } := by
  decide

/-- C10, as stated, fails: with the tab counted as whitespace the line `ls<TAB>-l` has the two
runs `ls` and `-l`, but the tokenizer yields the single token `ls<TAB>-l`, and the line is not
parsed like `ls -l`. -/
theorem tokenize_tab_counterexample :
    (maximal_runs spec_whitespace "ls\t-l".toList).map String.mk = ["ls", "-l"] ∧
    tokenize "ls\t-l".toList = ["ls\t-l"] ∧
    tokenize "ls -l".toList = ["ls", "-l"] ∧
    parse_command_line "ls\t-l".toList ≠ parse_command_line "ls -l".toList := by
  refine ⟨by decide, by decide, by decide, by decide⟩

/-- C10, amended. The tokens `parse_command_line` works on are the first `MAX_ARGS - 1` maximal
runs of characters other than the space and the newline, and all of these runs when the line
is shorter than `MAX_LEN`; the tab is no separator. -/
theorem tokenize_spec (line : List Char) :
    tokenize line
      = ((maximal_runs (fun c => c == ' ' || c == '\n') line).take (MAX_ARGS - 1)).map String.mk ∧
    (line.length < MAX_LEN →
      tokenize line = (maximal_runs (fun c => c == ' ' || c == '\n') line).map String.mk) :=
  ⟨tokenize_eq_take line, tokenize_eq_of_short line⟩

theorem tokenize_spec_witness :
    "ls\t-l  wc\n".toList.length < MAX_LEN ∧
    tokenize "ls\t-l  wc\n".toList
      = (maximal_runs (fun c => c == ' ' || c == '\n') "ls\t-l  wc\n".toList).map String.mk ∧
    tokenize "ls\t-l  wc\n".toList = ["ls\t-l", "wc"] :=
  ⟨by decide, (tokenize_spec "ls\t-l  wc\n".toList).2 (by decide), by decide⟩

/-! ## The job table -/

theorem entries_getElem? (t : job_table) (j : Nat) :
    t.entries[j]? = if j < t.num_jobs then some (t.jobs j) else none := by
  unfold job_table.entries
  rw [List.getElem?_map]
  by_cases h : j < t.num_jobs
  · rw [if_pos h, List.getElem?_range h]; rfl
  · rw [if_neg h, List.getElem?_eq_none (by simpa using h)]; rfl

theorem shift_loop_apply (n : Nat) :
    ∀ (fuel i : Nat) (jobs : Nat → job_t) (idx : Nat), i + fuel = n - 1 →
      shift_loop n fuel i jobs idx
        = if i ≤ idx ∧ idx < n - 1 then jobs (idx + 1) else jobs idx := by
  intro fuel
  induction fuel with
  | zero =>
    intro i jobs idx h
    have : ¬ (i ≤ idx ∧ idx < n - 1) := by omega
    rw [shift_loop, if_neg this]
  | succ f ih =>
    intro i jobs idx h
    have hlt : i < n - 1 := by omega
    rw [shift_loop, if_pos hlt, ih (i + 1) _ idx (by omega)]
    by_cases h1 : i + 1 ≤ idx ∧ idx < n - 1
    · have h2 : i ≤ idx ∧ idx < n - 1 := by omega
      rw [if_pos h1, if_pos h2, Function.update_noteq (by omega)]
    · rw [if_neg h1]
      by_cases h3 : idx = i
      · subst h3
        have h2 : idx ≤ idx ∧ idx < n - 1 := by omega
        rw [if_pos h2, Function.update_same]
      · have h2 : ¬ (i ≤ idx ∧ idx < n - 1) := by omega
        rw [if_neg h2, Function.update_noteq h3]

theorem remove_job_in_range (t : job_table) (i : Nat) (hi : i < t.num_jobs) :
    (remove_job t (i : Int)).num_jobs = t.num_jobs - 1 ∧
    (remove_job t (i : Int)).jobs
      = shift_loop t.num_jobs (t.num_jobs - 1 - i) i t.jobs := by
  have hc : ¬ (((i : Int) < 0 || (i : Int) >= (t.num_jobs : Int)) = true) := by
    simp only [Bool.or_eq_true, decide_eq_true_eq]
    omega
  unfold remove_job
  rw [if_neg hc]
  simp

/-- C6. For every job table `t` of `k = t.num_jobs` entries and every integer index:
if `0 ≤ job_index < k`, `remove_job` leaves `k - 1` entries, namely the old entries with the one
at `job_index` erased (an entry below the index keeps its position, an entry above it moves
down by one, so the old last entry `k - 1` ends at `k - 2`); otherwise the table, count and
slots, is unchanged. This holds for every `k`, in particular for `k ≤ MAX_JOBS`. -/
theorem remove_job_spec (t : job_table) (job_index : Int) :
    (0 ≤ job_index ∧ job_index < (t.num_jobs : Int) →
      (remove_job t job_index).num_jobs = t.num_jobs - 1 ∧
      (remove_job t job_index).entries = t.entries.eraseIdx job_index.toNat ∧
      (∀ j, j < job_index.toNat →
        (remove_job t job_index).entries[j]? = t.entries[j]?) ∧
      (∀ j, job_index.toNat ≤ j →
        (remove_job t job_index).entries[j]? = t.entries[j + 1]?)) ∧
    (job_index < 0 ∨ job_index ≥ (t.num_jobs : Int) → remove_job t job_index = t) := by
  constructor
  · rintro ⟨h0, h1⟩
    obtain ⟨i, rfl⟩ := Int.eq_ofNat_of_zero_le h0
    have hi : i < t.num_jobs := by omega
    obtain ⟨hn, hj⟩ := remove_job_in_range t i hi
    have key : ∀ j, (remove_job t (i : Int)).entries[j]?
        = if j < i then t.entries[j]? else t.entries[j + 1]? := by
      intro j
      rw [entries_getElem?, entries_getElem?, entries_getElem?, hn, hj,
        shift_loop_apply t.num_jobs _ i t.jobs j (by omega)]
      by_cases hji : j < i
      · have h2 : ¬ (i ≤ j ∧ j < t.num_jobs - 1) := by omega
        have h3 : j < t.num_jobs - 1 := by omega
        have h4 : j < t.num_jobs := by omega
        rw [if_pos hji, if_neg h2, if_pos h3, if_pos h4]
      · rw [if_neg hji]
        by_cases h3 : j < t.num_jobs - 1
        · have h2 : i ≤ j ∧ j < t.num_jobs - 1 := by omega
          have h4 : j + 1 < t.num_jobs := by omega
          rw [if_pos h3, if_pos h2, if_pos h4]
        · have h4 : ¬ j + 1 < t.num_jobs := by omega
          rw [if_neg h3, if_neg h4]
    refine ⟨hn, ?_, ?_, ?_⟩
    · apply List.ext_getElem?
      intro j
      rw [key j, List.getElem?_eraseIdx]
      rfl
    · intro j hj
      simp only [Int.toNat_ofNat] at hj
      rw [key j, if_pos hj]
    · intro j hj
      simp only [Int.toNat_ofNat] at hj
      rw [key j, if_neg (by omega)]
  · intro h
    have hc : ((job_index < 0 || job_index >= (t.num_jobs : Int)) = true) := by
      simp only [Bool.or_eq_true, decide_eq_true_eq]
      exact h
    unfold remove_job
    rw [if_pos hc]

theorem remove_job_spec_witness :
    (remove_job sample_table 1).num_jobs = 2 ∧
    (remove_job sample_table 1).entries
      = [⟨1, some "sleep 60 | cat", JOB_STOPPED⟩, ⟨3, some "sleep 60 | cat", JOB_STOPPED⟩] ∧
    (remove_job sample_table 1).entries = sample_table.entries.eraseIdx 1 ∧
    remove_job sample_table 3 = sample_table ∧
    remove_job sample_table (-1) = sample_table :=
  ⟨((remove_job_spec sample_table 1).1 ⟨by decide, by decide⟩).1,
   by decide,
   ((remove_job_spec sample_table 1).1 ⟨by decide, by decide⟩).2.1,
   (remove_job_spec sample_table 3).2 (Or.inr (by decide)),
   (remove_job_spec sample_table (-1)).2 (Or.inl (by decide))⟩

/-- C7, as stated, fails: for a stopped status (`0x147f`) and a table of three entries, with
room left, `add_job` whose `malloc` returns `NULL` gives -1 and leaves the three entries and the
count as they were; no entry is appended. -/
theorem add_job_malloc_failure_counterexample :
    linux_wait_macros.WIFSTOPPED 5247 = true ∧
    sample_table.num_jobs < MAX_JOBS ∧
    (add_job linux_wait_macros false sample_table 5247 7 "ls | wc").2 = -1 ∧
    (add_job linux_wait_macros false sample_table 5247 7 "ls | wc").1.num_jobs = 3 ∧
    (add_job linux_wait_macros false sample_table 5247 7 "ls | wc").1.entries
      = sample_table.entries ∧
    (add_job linux_wait_macros false sample_table 5247 7 "ls | wc").1.entries
      ≠ sample_table.entries ++ [{ pid := 7, cmd := some "ls | wc", status := JOB_STOPPED }] := by
  refine ⟨by decide, by decide, by decide, by decide, by decide, by decide⟩

/-- C7, amended. For every wait status, process id, command text and table of at most
`MAX_JOBS` entries: a status that is not stopped leaves the table unchanged and gives 0; a
stopped status with room left, when the `malloc` for the text succeeds, appends the single entry
(pid, text, `JOB_STOPPED`) at index `num_jobs` and gives 0; a stopped status with room left,
when that `malloc` fails, leaves the entries and the count unchanged and gives -1; a stopped
status on a full table leaves the table unchanged and gives -1. The count stays at most
`MAX_JOBS`. -/
theorem add_job_spec (W : wait_macros) (malloc_ok : Bool) (t : job_table) (status pid : Int)
    (cmdStr : String) (hn : t.num_jobs ≤ MAX_JOBS) :
    (W.WIFSTOPPED status = false → add_job W malloc_ok t status pid cmdStr = (t, 0)) ∧
    (W.WIFSTOPPED status = true → t.num_jobs < MAX_JOBS → malloc_ok = true →
      (add_job W malloc_ok t status pid cmdStr).2 = 0 ∧
      (add_job W malloc_ok t status pid cmdStr).1.num_jobs = t.num_jobs + 1 ∧
      (add_job W malloc_ok t status pid cmdStr).1.entries
        = t.entries ++ [{ pid := pid, cmd := some cmdStr, status := JOB_STOPPED }] ∧
      (add_job W malloc_ok t status pid cmdStr).1.entries[t.num_jobs]?
        = some { pid := pid, cmd := some cmdStr, status := JOB_STOPPED }) ∧
    (W.WIFSTOPPED status = true → t.num_jobs < MAX_JOBS → malloc_ok = false →
      (add_job W malloc_ok t status pid cmdStr).2 = -1 ∧
      (add_job W malloc_ok t status pid cmdStr).1.num_jobs = t.num_jobs ∧
      (add_job W malloc_ok t status pid cmdStr).1.entries = t.entries) ∧
    (W.WIFSTOPPED status = true → t.num_jobs = MAX_JOBS →
      add_job W malloc_ok t status pid cmdStr = (t, -1)) ∧
    (add_job W malloc_ok t status pid cmdStr).1.num_jobs ≤ MAX_JOBS := by
  refine ⟨?_, ?_, ?_, ?_, ?_⟩
  · intro h
    simp [add_job, h]
  · intro h hlt hm
    have hadd : add_job W malloc_ok t status pid cmdStr
        = ({ jobs := Function.update t.jobs t.num_jobs
                       { pid := pid, cmd := some cmdStr, status := JOB_STOPPED }
             num_jobs := t.num_jobs + 1 }, 0) := by
      simp [add_job, h, hlt, hm]
    have hent : (add_job W malloc_ok t status pid cmdStr).1.entries
        = t.entries ++ [{ pid := pid, cmd := some cmdStr, status := JOB_STOPPED }] := by
      rw [hadd]
      unfold job_table.entries
      simp only [List.range_succ, List.map_append, List.map_cons, List.map_nil,
        Function.update_same]
      congr 1
      apply List.map_congr_left
      intro j hj
      rw [List.mem_range] at hj
      exact Function.update_noteq (by omega) _ _
    refine ⟨by rw [hadd], by rw [hadd], hent, ?_⟩
    rw [hent, List.getElem?_append_right (by simp [job_table.entries])]
    simp [job_table.entries]
  · intro h hlt hm
    have hadd : add_job W malloc_ok t status pid cmdStr
        = ({ jobs := Function.update t.jobs t.num_jobs { t.jobs t.num_jobs with cmd := none }
             num_jobs := t.num_jobs }, -1) := by
      simp [add_job, h, hlt, hm]
    refine ⟨by rw [hadd], by rw [hadd], ?_⟩
    rw [hadd]
    unfold job_table.entries
    simp only
    apply List.map_congr_left
    intro j hj
    rw [List.mem_range] at hj
    exact Function.update_noteq (by omega) _ _
  · intro h heq
    have : ¬ t.num_jobs < MAX_JOBS := by omega
    simp [add_job, h, this]
  · unfold add_job
    split
    · split
      · split
        · exact hn
        · simp only; omega
      · exact hn
    · exact hn

theorem add_job_spec_witness :
    sample_table.num_jobs ≤ MAX_JOBS ∧
    add_job linux_wait_macros true sample_table 0 7 "ls | wc" = (sample_table, 0) ∧
    (add_job linux_wait_macros true sample_table 5247 7 "ls | wc").1.entries
      = sample_table.entries ++ [{ pid := 7, cmd := some "ls | wc", status := JOB_STOPPED }] ∧
    (add_job linux_wait_macros true sample_table 5247 7 "ls | wc").2 = 0 ∧
    ((add_job linux_wait_macros false sample_table 5247 7 "ls | wc").2 = -1 ∧
     (add_job linux_wait_macros false sample_table 5247 7 "ls | wc").1.num_jobs
       = sample_table.num_jobs ∧
     (add_job linux_wait_macros false sample_table 5247 7 "ls | wc").1.entries
       = sample_table.entries) ∧
    add_job linux_wait_macros true full_table 5247 7 "ls | wc" = (full_table, -1) :=
  ⟨by decide,
   (add_job_spec linux_wait_macros true sample_table 0 7 "ls | wc" (by decide)).1 (by decide),
   ((add_job_spec linux_wait_macros true sample_table 5247 7 "ls | wc" (by decide)).2.1
      (by decide) (by decide) rfl).2.2.1,
   by decide,
   (add_job_spec linux_wait_macros false sample_table 5247 7 "ls | wc" (by decide)).2.2.1
     (by decide) (by decide) rfl,
   (add_job_spec linux_wait_macros true full_table 5247 7 "ls | wc" (by decide)).2.2.2.1
     (by decide) (by decide)⟩

/-! ## The orchestrator -/

theorem execute_single_command_parent (W : wait_macros) (os : os_responses) (cmd : command_t)
    (t : job_table) (name : String) (h0 : cmd.args.head? = some name)
    (hb : is_builtin name = false) (hc : check_external_command os name = 0)
    (hf : os.fork_ret 0 > 0) :
    (execute_single_command W os cmd t).outcome
      = exec_outcome.returned (W.WEXITSTATUS (os.wait_status 0)) := by
  have h1 : ¬ (os.fork_ret 0 == 0) = true := by simp; omega
  simp [execute_single_command, h0, hb, hc, h1, hf]

theorem spawn_loop_builtin (os : os_responses) (pl : pipeline_t) (t : job_table) (b : Nat)
    (hb : ∃ cmd name, pl.commands[b]? = some cmd ∧ cmd.args.head? = some name ∧
      is_builtin name = true) :
    ∀ (fuel i : Nat) (forks : List Nat), i ≤ b → b < i + fuel →
      (∀ k, i ≤ k → k < b → ∃ cmd name, pl.commands[k]? = some cmd ∧
        cmd.args.head? = some name ∧ is_builtin name = false ∧ os.fork_ret k > 0) →
      spawn_loop os pl t fuel i forks
        = (some ⟨exec_outcome.returned (-1), forks ++ List.range' i (b - i), t⟩,
           forks ++ List.range' i (b - i)) := by
  intro fuel
  induction fuel with
  | zero => intro i forks h1 h2; omega
  | succ f ih =>
    intro i forks h1 h2 h3
    rcases Nat.lt_or_ge i b with hlt | hge
    · obtain ⟨cmd, name, hc, hn, hnb, hf⟩ := h3 i (Nat.le_refl i) hlt
      have hf0 : ¬ (os.fork_ret i == 0) = true := by simp; omega
      have hf1 : ¬ os.fork_ret i < 0 := by omega
      rw [spawn_loop, hc]
      simp only [hn, hnb, Bool.false_eq_true, if_false, hf0, hf1]
      rw [ih (i + 1) (forks ++ [i]) (by omega) (by omega) (fun k hk => h3 k (by omega))]
      have e : b - i = (b - (i + 1)) + 1 := by omega
      rw [e, List.range'_succ]
      simp
    · have hib : i = b := by omega
      subst hib
      obtain ⟨cmd, name, hc, hn, hbt⟩ := hb
      rw [spawn_loop, hc]
      simp [hn, hbt]

theorem execute_pipeline_builtin (W : wait_macros) (os : os_responses) (pl : pipeline_t)
    (original_cmd : String) (t : job_table) (b : Nat)
    (hn : 2 ≤ pl.num_commands) (hbn : b < pl.num_commands)
    (hpipes : create_pipes_loop os (pl.num_commands - 1) 0 = true)
    (hb : ∃ cmd name, pl.commands[b]? = some cmd ∧ cmd.args.head? = some name ∧
      is_builtin name = true)
    (hbefore : ∀ k, k < b → ∃ cmd name, pl.commands[k]? = some cmd ∧
      cmd.args.head? = some name ∧ is_builtin name = false ∧ os.fork_ret k > 0) :
    (execute_pipeline W os (some pl) original_cmd t).outcome = exec_outcome.returned (-1) ∧
    (execute_pipeline W os (some pl) original_cmd t).forks = List.range b := by
  have h0 : ¬ (pl.num_commands == 0) = true := by simp; omega
  have h1 : ¬ (pl.num_commands == 1) = true := by simp; omega
  have hs := spawn_loop_builtin os pl t b hb pl.num_commands 0 [] (Nat.zero_le b) (by omega)
    (fun k _ hk => hbefore k hk)
  unfold execute_pipeline
  simp only [if_neg h0, if_neg h1, hpipes, Bool.not_true, Bool.false_eq_true, if_false, hs]
  simp [List.range_eq_range']

theorem spawn_loop_all (os : os_responses) (pl : pipeline_t) (t : job_table) :
    ∀ (fuel i : Nat) (forks : List Nat),
      (∀ k, i ≤ k → k < i + fuel → ∃ cmd name, pl.commands[k]? = some cmd ∧
        cmd.args.head? = some name ∧ is_builtin name = false ∧ os.fork_ret k > 0) →
      spawn_loop os pl t fuel i forks = (none, forks ++ List.range' i fuel) := by
  intro fuel
  induction fuel with
  | zero => intro i forks _; simp [spawn_loop]
  | succ f ih =>
    intro i forks h
    obtain ⟨cmd, name, hc, hn, hnb, hf⟩ := h i (Nat.le_refl i) (by omega)
    have hf0 : ¬ (os.fork_ret i == 0) = true := by simp; omega
    have hf1 : ¬ os.fork_ret i < 0 := by omega
    rw [spawn_loop, hc]
    simp only [hn, hnb, Bool.false_eq_true, if_false, hf0, hf1]
    rw [ih (i + 1) (forks ++ [i]) (fun k hk1 hk2 => h k (by omega) (by omega)),
      List.range'_succ]
    simp

theorem wait_loop_last_status (W : wait_macros) (os : os_responses) (pl : pipeline_t)
    (original_cmd : String) :
    ∀ (fuel i : Nat) (t : job_table) (ls : Int), i + fuel = pl.num_commands →
      (wait_loop W os pl original_cmd fuel i t ls).2
        = if 0 < fuel then os.wait_status (pl.num_commands - 1) else ls := by
  intro fuel
  induction fuel with
  | zero => intro i t ls _; simp [wait_loop]
  | succ f ih =>
    intro i t ls h
    rw [wait_loop]
    by_cases hi : (i == pl.num_commands - 1) = true
    · have hi2 : i = pl.num_commands - 1 := by simpa using hi
      have hf : f = 0 := by omega
      subst hf
      rw [if_pos hi, wait_loop, hi2]
      simp
    · have hi2 : i ≠ pl.num_commands - 1 := by simpa using hi
      rw [if_neg hi, ih (i + 1) t ls (by omega)]
      have : 0 < f := by omega
      simp [this]

theorem execute_pipeline_exit_status (W : wait_macros) (os : os_responses) (pl : pipeline_t)
    (original_cmd : String) (t : job_table)
    (hn : 2 ≤ pl.num_commands)
    (hpipes : create_pipes_loop os (pl.num_commands - 1) 0 = true)
    (hstages : ∀ k, k < pl.num_commands → ∃ cmd name, pl.commands[k]? = some cmd ∧
      cmd.args.head? = some name ∧ is_builtin name = false ∧ os.fork_ret k > 0) :
    (execute_pipeline W os (some pl) original_cmd t).outcome
      = exec_outcome.returned
          (if W.WIFEXITED (os.wait_status (pl.num_commands - 1))
           then W.WEXITSTATUS (os.wait_status (pl.num_commands - 1)) else -1) := by
  have h0 : ¬ (pl.num_commands == 0) = true := by simp; omega
  have h1 : ¬ (pl.num_commands == 1) = true := by simp; omega
  have hs := spawn_loop_all os pl t pl.num_commands 0 []
    (fun k _ hk => hstages k (by omega))
  have hw := wait_loop_last_status W os pl original_cmd pl.num_commands 0 t 0 (by omega)
  have hpos : 0 < pl.num_commands := by omega
  rw [if_pos hpos] at hw
  unfold execute_pipeline
  simp only [if_neg h0, if_neg h1, hpipes, Bool.not_true, Bool.false_eq_true, if_false, hs, hw]

/-- C8. With the Linux wait macros, a single external command whose child is killed by signal 9
has a status that is no normal exit, yet `execute_single_command` returns 0, and
`execute_pipeline` on the one-command line `sleep 60` returns the same; for a child stopped by
signal 20 (status `0x147f`) it returns 20. The pipeline path, on `sleep 60 | cat` with the same
terminal status 9, returns -1. -/
theorem execute_single_command_not_exited :
    linux_wait_macros.WIFEXITED 9 = false ∧
    (execute_single_command linux_wait_macros (os_with_status 9)
      ⟨["sleep", "60"], 2, OP_NONE, none⟩ empty_table).outcome = exec_outcome.returned 0 ∧
    (execute_pipeline linux_wait_macros (os_with_status 9)
      (parse_command_line "sleep 60".toList) "sleep 60" empty_table).outcome
      = exec_outcome.returned 0 ∧
    linux_wait_macros.WIFEXITED 5247 = false ∧
    (execute_pipeline linux_wait_macros (os_with_status 5247)
      (parse_command_line "sleep 60".toList) "sleep 60" empty_table).outcome
      = exec_outcome.returned 20 ∧
    (execute_pipeline linux_wait_macros (os_with_status 9)
      (parse_command_line "sleep 60 | cat".toList) "sleep 60 | cat" empty_table).outcome
      = exec_outcome.returned (-1) := by
  refine ⟨by decide, by decide, by decide, by decide, by decide, by decide⟩

/-- C9. On the two-stage line `ls | cd`, whose second stage is the builtin `cd`,
`execute_pipeline` returns -1 but has called `fork` for stage 0 before it looks at stage 1. -/
theorem execute_pipeline_forks_before_builtin :
    (execute_pipeline linux_wait_macros (os_with_status 0)
      (parse_command_line "ls | cd".toList) "ls | cd" empty_table).outcome
      = exec_outcome.returned (-1) ∧
    (execute_pipeline linux_wait_macros (os_with_status 0)
      (parse_command_line "ls | cd".toList) "ls | cd" empty_table).forks = [0] := by
  refine ⟨by decide, by decide⟩

end Jsh
